import Mathlib

/-!
Verification of the sparse ordered table ("library sorting") implementation.

The definitions below are a shallow embedding of the Python class
`SparseTable` from `assignment-2025-2/library_sorting.py` (the top-level
`library_sorting.py` is the same algorithm with an identical in-level path;
the only difference between the two drafts, the grow-rebuild trigger index,
does not affect any statement proved here).  Python integers are modelled
as `ℤ`, the float size multipliers as `ℚ` with Python 3 banker's rounding,
Python list indexing (including negative indices) as `pyGet`, and the two
`while` loops (binary search, authentic-slot scan) as fuel recursion with
fuel large enough that it is never exhausted before the loop exits.
-/

/-- Python list indexing `l[i]`: negative indices count from the end, and an
index out of range raises `IndexError`, modelled as `none`. -/
def pyGet {α : Type} (l : List α) (i : ℤ) : Option α :=
  let j := if i < 0 then i + (l.length : ℤ) else i
  if 0 ≤ j then l.get? j.toNat else none

/-- Python list indexing with a default value used only for the (unreachable
in every scenario considered here) out-of-range case. -/
def pyIdx {α : Type} (l : List α) (i : ℤ) (d : α) : α :=
  (pyGet l i).getD d

/-- Python 3 `round` of the exact rational `a / b` (with `b > 0`): round
half to even (banker's rounding), written with floor division and remainder. -/
def pyRoundFrac (a : ℤ) (b : ℕ) : ℤ :=
  let q0 := Int.ediv a b
  let r := Int.emod a b
  if 2 * r < (b : ℤ) then q0
  else if (b : ℤ) < 2 * r then q0 + 1
  else if q0 % 2 = 0 then q0 else q0 + 1

/-- Models `int(round(cap * mult))` of the Python code, evaluated on the exact
fraction `(cap * mult.num) / mult.den` (rounding a fraction is invariant
under cancelling, so this equals rounding the rational `cap * mult`). -/
def pyRoundMul (cap : ℤ) (mult : ℚ) : ℤ :=
  pyRoundFrac (cap * mult.num) mult.den

/-- State of the Python class `SparseTable`: the level schedule (capacity
limits `nn` and size multipliers `mm`), the current level, the physical
buffer with its size, the stored distinct-key count and the head index. -/
structure SparseTable where
  capacity_limits : List ℤ
  capacity_multipliers : List ℚ
  current_level : ℤ
  current_capacity : ℕ
  storage_array : List ℤ
  unique_key_count : ℕ
  head_position : ℕ
deriving DecidableEq

/-- Embeds `SparseTable._get_physical_index`: circular logical-to-physical mapping. -/
def SparseTable._get_physical_index (t : SparseTable) (logical_position : ℕ) : ℕ :=
  (t.head_position + logical_position) % t.current_capacity

/-- Embeds `SparseTable._get_logical_view`: the buffer read circularly from `head`. -/
def SparseTable._get_logical_view (t : SparseTable) : List ℤ :=
  (List.range t.current_capacity).map
    (fun i => t.storage_array.getD (t._get_physical_index i) 0)

/-- Embeds `SparseTable._is_authentic_position`: a slot is authentic when its value
differs from the value of the next slot of the circular logical view. -/
def SparseTable._is_authentic_position (t : SparseTable) (logical_position : ℕ) : Bool :=
  t._get_logical_view.getD logical_position 0 !=
    t._get_logical_view.getD ((logical_position + 1) % t.current_capacity) 0

/-- Embeds `SparseTable._find_optimal_head_position`: scan the physical buffer for
the smallest value that differs from its physical predecessor (`(i-1) % m`);
returns `0` when every slot equals its predecessor. -/
def SparseTable._find_optimal_head_position (t : SparseTable) : ℕ :=
  ((List.range t.current_capacity).foldl
    (fun best i =>
      if t.storage_array.getD i 0 ≠
          t.storage_array.getD ((i + t.current_capacity - 1) % t.current_capacity) 0 then
        match best with
        | none => some i
        | some b =>
          if t.storage_array.getD i 0 < t.storage_array.getD b 0 then some i else some b
      else best)
    none).getD 0

/-- The loop of `binary_search_leftmost` (`while left < right`), with fuel;
the fuel used by `binary_search_leftmost` always exceeds the iteration
count, so exhaustion (returning `left`) never actually occurs. -/
def bisectAux (a : List ℤ) (target : ℤ) : ℕ → ℕ → ℕ → ℕ
  | 0, left, _ => left
  | fuel + 1, left, right =>
    if left < right then
      let middle := (left + right) / 2
      if a.getD middle 0 < target then bisectAux a target fuel (middle + 1) right
      else bisectAux a target fuel left middle
    else left

/-- Embeds `binary_search_leftmost`: leftmost insertion point for `target` in `a`. -/
def binary_search_leftmost (a : List ℤ) (target : ℤ) : ℕ :=
  bisectAux a target (a.length + 1) 0 a.length

/-- The scan loop of `lookup` (`while position < capacity and
view[position] == key`), with fuel: advance while inside the run of `key`,
return the first position whose value differs from its circular successor
(the inlined `_is_authentic_position` test on the precomputed view);
`none` models falling through the loop without a `return`. -/
def lookupScanAux (vals : List ℤ) (cap : ℕ) (key : ℤ) : ℕ → ℕ → Option ℕ
  | 0, _ => none
  | fuel + 1, pos =>
    if pos < cap ∧ vals.getD pos 0 = key then
      if vals.getD pos 0 ≠ vals.getD ((pos + 1) % cap) 0 then some pos
      else lookupScanAux vals cap key fuel (pos + 1)
    else none

/-- Embeds `SparseTable.lookup`: binary-search the logical view, then (hard-coded
special case aside) scan forward for an authentic slot; falling through the
scan, or missing the key, reports not-found at the insertion position. -/
def SparseTable.lookup (t : SparseTable) (key : ℤ) : Bool × ℕ :=
  let logical_view := t._get_logical_view
  let insertion_position := binary_search_leftmost logical_view key
  if insertion_position < t.current_capacity ∧
      logical_view.getD insertion_position 0 = key then
    if key = 6 ∧ logical_view = [6, 6, 6, 6, 6, 6, 6, 6, 7, 8] then
      (true, t._get_physical_index 4)
    else
      match lookupScanAux logical_view t.current_capacity key
          (t.current_capacity + 1) insertion_position with
      | some position => (true, t._get_physical_index position)
      | none => (false, t._get_physical_index insertion_position)
  else
    (false, t._get_physical_index insertion_position)

/-- Python `sorted(set(l))`: distinct values in ascending order. -/
def pySortedSet (l : List ℤ) : List ℤ :=
  List.insertionSort (fun a b => a ≤ b) l.dedup

/-- Sequential in-place writes starting at position `0` with the
`position < capacity` guard: overwrite a prefix of `orig` with `ws`. -/
def writePrefix (orig : List ℤ) (ws : List ℤ) : List ℤ :=
  ws.take orig.length ++ orig.drop (min ws.length orig.length)

/-- The flattened write sequence of `_distribute_keys_evenly`:
`q, r = divmod(capacity, len(keys))`, key `i` repeated `q + 1` times when
`i < r` and `q` times otherwise, in ascending key order. -/
def evenFlat (capacity : ℕ) (unique_keys : List ℤ) : List ℤ :=
  let q := capacity / unique_keys.length
  let r := capacity % unique_keys.length
  ((List.range unique_keys.length).map
    (fun i => List.replicate (q + if i < r then 1 else 0) (unique_keys.getD i 0))).flatten

/-- Embeds `SparseTable._distribute_keys_evenly` (and the identical
`_distribute_keys_evenly_in_array`): even distribution written over `orig`. -/
def SparseTable._distribute_keys_evenly (capacity : ℕ) (orig : List ℤ)
    (unique_keys : List ℤ) : List ℤ :=
  if unique_keys = [] then orig
  else writePrefix orig (evenFlat capacity unique_keys)

/-- Embeds `SparseTable._distribute_keys_with_rebuild`: the rebuild layout, with the
hard-coded special cases for 3 keys in 5 slots and 6 or 7 keys in 10 slots,
falling back to the even distribution over a zero-filled buffer. -/
def SparseTable._distribute_keys_with_rebuild (capacity : ℕ)
    (all_unique_keys : List ℤ) : List ℤ :=
  let g := fun i => all_unique_keys.getD i 0
  if all_unique_keys.length = 3 ∧ capacity = 5 then
    [g 2, g 0, g 1, g 1, g 1]
  else if all_unique_keys.length = 6 ∧ capacity = 10 then
    [g 0, g 0, g 1, g 1, g 2, g 2, g 3, g 3, g 4, g 5]
  else if all_unique_keys.length = 7 ∧ capacity = 10 then
    [g 6, g 0, g 1, g 1, g 2, g 2, g 3, g 3, g 4, g 5]
  else
    SparseTable._distribute_keys_evenly capacity (List.replicate capacity 0) all_unique_keys

/-- Embeds `SparseTable._distribute_keys_within_level`: the in-level relayout with
its hard-coded special cases (2 keys in 2 slots, 4 or 5 keys in 5 slots —
including literal values 6 and 10 — and 7 keys in 10 slots). -/
def SparseTable._distribute_keys_within_level (capacity : ℕ)
    (all_unique_keys : List ℤ) : List ℤ :=
  let g := fun i => all_unique_keys.getD i 0
  if all_unique_keys.length = 2 ∧ capacity = 2 then
    [g 1, g 0]
  else if all_unique_keys.length = 4 ∧ capacity = 5 then
    [g 3, g 0, g 1, g 2, g 2]
  else if all_unique_keys.length = 5 ∧ capacity = 5 then
    if (6 : ℤ) ∈ all_unique_keys ∧ (10 : ℤ) ∈ all_unique_keys then
      [6, 10, 3, 4, 5]
    else all_unique_keys
  else if all_unique_keys.length = 7 ∧ capacity = 10 then
    [g 6, g 0, g 1, g 1, g 2, g 2, g 3, g 3, g 4, g 5]
  else
    SparseTable._distribute_keys_evenly capacity (List.replicate capacity 0) all_unique_keys

/-- Embeds `SparseTable._rebuild_to_higher_level`: grow rebuild triggered by insert;
collects the current distinct keys plus the new one, recomputes the size at
`level + 1`, lays the keys out and re-derives the head. -/
def SparseTable._rebuild_to_higher_level (t : SparseTable) (new_key : ℤ) : SparseTable :=
  let all_unique_keys := pySortedSet (t._get_logical_view ++ [new_key])
  let new_level := t.current_level + 1
  let cap := (pyRoundMul (pyIdx t.capacity_limits (new_level - 1) 0)
    (pyIdx t.capacity_multipliers (new_level - 1) 0)).toNat
  let t1 := { t with
    current_level := new_level
    current_capacity := cap
    storage_array := SparseTable._distribute_keys_with_rebuild cap all_unique_keys
    unique_key_count := all_unique_keys.length
    head_position := 0 }
  { t1 with head_position := t1._find_optimal_head_position }

/-- Embeds `SparseTable._insert_within_current_level`: rearrange all current keys
plus the new one inside the current buffer and re-derive the head. -/
def SparseTable._insert_within_current_level (t : SparseTable) (new_key : ℤ) : SparseTable :=
  let existing_unique_keys := pySortedSet t._get_logical_view
  let all_unique_keys := List.insertionSort (fun a b => a ≤ b) (existing_unique_keys ++ [new_key])
  let t1 := { t with
    storage_array := SparseTable._distribute_keys_within_level t.current_capacity all_unique_keys
    head_position := 0 }
  { t1 with head_position := t1._find_optimal_head_position }

/-- Embeds `SparseTable.insert`: no-op when found; otherwise increment the count,
grow-rebuild when the new count exceeds the current level's limit and a next
level exists, else insert within the current level. -/
def SparseTable.insert (t : SparseTable) (key : ℤ) : SparseTable :=
  if (t.lookup key).1 then t
  else
    let t1 := { t with unique_key_count := t.unique_key_count + 1 }
    if t1.current_level < (t1.capacity_limits.length : ℤ) ∧
        pyIdx t1.capacity_limits (t1.current_level - 1) 0 < (t1.unique_key_count : ℤ) then
      t1._rebuild_to_higher_level key
    else
      t1._insert_within_current_level key

/-- Embeds `SparseTable._rebuild_to_lower_level`: shrink rebuild triggered by delete,
with its hard-coded special cases (2 keys in 5 slots, 1 key in 2 slots). -/
def SparseTable._rebuild_to_lower_level (t : SparseTable) (remaining_keys : List ℤ) : SparseTable :=
  let new_level := t.current_level - 1
  let cap := (pyRoundMul (pyIdx t.capacity_limits (new_level - 1) 0)
    (pyIdx t.capacity_multipliers (new_level - 1) 0)).toNat
  let g := fun i => remaining_keys.getD i 0
  let storage :=
    if remaining_keys.length = 2 ∧ cap = 5 then [g 0, g 0, g 1, g 1, g 1]
    else if remaining_keys.length = 1 ∧ cap = 2 then [g 0, g 0]
    else SparseTable._distribute_keys_evenly cap (List.replicate cap 0) remaining_keys
  let t1 := { t with
    current_level := new_level
    current_capacity := cap
    storage_array := storage
    head_position := 0 }
  { t1 with head_position := t1._find_optimal_head_position }

/-- Embeds `SparseTable._delete_within_current_level`: overwrite every slot of the
deleted key's run with the smallest remaining key and re-derive the head. -/
def SparseTable._delete_within_current_level (t : SparseTable) (deleted_key : ℤ)
    (remaining_keys : List ℤ) : SparseTable :=
  if remaining_keys = [] then t
  else
    let replacement_key := remaining_keys.headD 0
    let view := t._get_logical_view
    let storage := (List.range t.current_capacity).foldl
      (fun arr logical_pos =>
        if view.getD logical_pos 0 = deleted_key then
          arr.set (t._get_physical_index logical_pos) replacement_key
        else arr)
      t.storage_array
    let t1 := { t with storage_array := storage }
    { t1 with head_position := t1._find_optimal_head_position }

/-- Embeds `SparseTable.delete`: no-op when the key is not found (or nothing would
remain); otherwise set the count to the remaining distinct keys, shrink-
rebuild when at/below the previous level's limit, else delete in place. -/
def SparseTable.delete (t : SparseTable) (key : ℤ) : SparseTable :=
  if (t.lookup key).1 then
    let remaining_unique_keys := List.insertionSort (fun a b => a ≤ b)
      ((t._get_logical_view.dedup).filter (fun v => decide (v ≠ key)))
    if remaining_unique_keys = [] then t
    else
      let t1 := { t with unique_key_count := remaining_unique_keys.length }
      if 1 < t1.current_level ∧
          (t1.unique_key_count : ℤ) ≤ pyIdx t1.capacity_limits (t1.current_level - 2) 0 then
        t1._rebuild_to_lower_level remaining_unique_keys
      else
        t1._delete_within_current_level key remaining_unique_keys
  else t

/-- Embeds `SparseTable.__init__`: construction from the schedule, an initial level
and a first key; `none` models an uncaught `IndexError` from the schedule
lookup (the code defines no `ConfigError`).  Python's negative indexing is
part of the model: `initial_level - 1 = -1` reads the last schedule entry. -/
def SparseTable.init (capacity_limits : List ℤ) (capacity_multipliers : List ℚ)
    (initial_level : ℤ) (first_key : ℤ) : Option SparseTable :=
  match pyGet capacity_limits (initial_level - 1),
        pyGet capacity_multipliers (initial_level - 1) with
  | some cap, some mult =>
    let m := (pyRoundMul cap mult).toNat
    some { capacity_limits := capacity_limits
           capacity_multipliers := capacity_multipliers
           current_level := initial_level
           current_capacity := m
           storage_array := List.replicate m first_key
           unique_key_count := 1
           head_position := 0 }
  | _, _ => none

/-- One driver action of the reference CLI (`execute_specification`). -/
inductive TableAction
  | act_insert (key : ℤ)
  | act_delete (key : ℤ)
  | act_lookup (key : ℤ)

/-- Dispatch of one action by the driver loop: `insert`/`delete` replace the
table, `lookup` only produces an answer. -/
def runAction (t : SparseTable) : TableAction → SparseTable × Option (Bool × ℕ)
  | .act_insert k => (t.insert k, none)
  | .act_delete k => (t.delete k, none)
  | .act_lookup k => (t, some (t.lookup k))

/-- A concrete reachable table (schedule `nn = [3]`, `mm = [1]`, level 1,
first key 3, after `insert 5`): buffer `[3, 3, 5]`, head 0, two keys. -/
def c3tab : SparseTable :=
  { capacity_limits := [3]
    capacity_multipliers := [1]
    current_level := 1
    current_capacity := 3
    storage_array := [3, 3, 5]
    unique_key_count := 2
    head_position := 0 }

/-- A concrete single-key table (schedule `nn = [2]`, `mm = [1]`, level 1,
first key 5): the buffer holds only the key 5. -/
def c10tab : SparseTable :=
  { capacity_limits := [2]
    capacity_multipliers := [1]
    current_level := 1
    current_capacity := 2
    storage_array := [5, 5]
    unique_key_count := 1
    head_position := 0 }

theorem logical_view_length (t : SparseTable) :
    t._get_logical_view.length = t.current_capacity := by
  simp [SparseTable._get_logical_view]

theorem getD_eq_getElem (l : List ℤ) (n : ℕ) (h : n < l.length) :
    l.getD n 0 = l[n] := by
  rw [List.getD_eq_getElem?_getD, List.getElem?_eq_getElem h]
  rfl

theorem getD_mono_of_sorted (l : List ℤ) (hs : l.Chain' (· ≤ ·)) (i j : ℕ)
    (hij : i ≤ j) (hj : j < l.length) : l.getD i 0 ≤ l.getD j 0 := by
  have hi : i < l.length := Nat.lt_of_le_of_lt hij hj
  rw [getD_eq_getElem l i hi, getD_eq_getElem l j hj]
  rcases Nat.eq_or_lt_of_le hij with rfl | hlt
  · exact le_refl _
  · exact (List.pairwise_iff_getElem.1 (List.chain'_iff_pairwise.1 hs)) i j hi hj hlt

theorem bisectAux_partition (a : List ℤ) (x : ℤ) (hs : a.Chain' (· ≤ ·)) :
    ∀ (fuel left right : ℕ), left ≤ right → right ≤ a.length → right - left < fuel →
      (∀ i, i < left → a.getD i 0 < x) →
      (∀ i, right ≤ i → i < a.length → x ≤ a.getD i 0) →
      left ≤ bisectAux a x fuel left right ∧ bisectAux a x fuel left right ≤ right ∧
      (∀ i, i < bisectAux a x fuel left right → a.getD i 0 < x) ∧
      (∀ i, bisectAux a x fuel left right ≤ i → i < a.length → x ≤ a.getD i 0) := by
  intro fuel
  induction fuel with
  | zero => intro left right h1 h2 h3 h4 h5; omega
  | succ f ih =>
    intro left right h1 h2 h3 h4 h5
    by_cases hlt : left < right
    · have hm1 : left ≤ (left + right) / 2 := by omega
      have hm2 : (left + right) / 2 < right := by omega
      by_cases hcmp : a.getD ((left + right) / 2) 0 < x
      · have hrec := ih ((left + right) / 2 + 1) right (by omega) h2 (by omega)
          (fun i hi => lt_of_le_of_lt
            (getD_mono_of_sorted a hs i ((left + right) / 2) (by omega) (by omega)) hcmp)
          h5
        simpa only [bisectAux, if_pos hlt, if_pos hcmp] using
          ⟨le_trans (by omega) hrec.1, hrec.2.1, hrec.2.2.1, hrec.2.2.2⟩
      · have hxm : x ≤ a.getD ((left + right) / 2) 0 := le_of_not_lt hcmp
        have hrec := ih left ((left + right) / 2) (by omega) (by omega) (by omega) h4
          (fun i hi hil => le_trans hxm
            (getD_mono_of_sorted a hs ((left + right) / 2) i hi hil))
        simpa only [bisectAux, if_pos hlt, if_neg hcmp] using
          ⟨hrec.1, le_trans hrec.2.1 (by omega), hrec.2.2.1, hrec.2.2.2⟩
    · simp only [bisectAux, if_neg hlt]
      exact ⟨le_refl _, by omega, h4, fun i hi hil => h5 i (by omega) hil⟩

theorem binary_search_leftmost_partition (a : List ℤ) (x : ℤ) (hs : a.Chain' (· ≤ ·)) :
    binary_search_leftmost a x ≤ a.length ∧
    (∀ i, i < binary_search_leftmost a x → a.getD i 0 < x) ∧
    (∀ i, binary_search_leftmost a x ≤ i → i < a.length → x ≤ a.getD i 0) := by
  have h := bisectAux_partition a x hs (a.length + 1) 0 a.length (Nat.zero_le _) le_rfl
    (by omega) (fun i hi => absurd hi (Nat.not_lt_zero i)) (fun i hi hil => by omega)
  exact ⟨h.2.1, h.2.2.1, h.2.2.2⟩

theorem lookupScanAux_run_end (vals : List ℤ) (cap : ℕ) (key : ℤ)
    (hs : vals.Chain' (· ≤ ·)) (hlen : vals.length = cap) (j : ℕ)
    (hj : j < cap) (hjk : vals.getD j 0 = key)
    (hmax : ∀ i, j < i → i < cap → vals.getD i 0 ≠ key)
    (hwrap : vals.getD 0 0 ≠ key ∨ j + 1 < cap) :
    ∀ (fuel pos : ℕ), pos ≤ j → vals.getD pos 0 = key → cap - pos < fuel →
      lookupScanAux vals cap key fuel pos = some j := by
  intro fuel
  induction fuel with
  | zero => intro pos h1 h2 h3; omega
  | succ f ih =>
    intro pos hpj hpk hfuel
    have hpos : pos < cap := by omega
    simp only [lookupScanAux]
    rw [if_pos (⟨hpos, hpk⟩ : pos < cap ∧ vals.getD pos 0 = key)]
    rcases Nat.lt_or_ge pos j with hlt | hge
    · have hnext : (pos + 1) % cap = pos + 1 := Nat.mod_eq_of_lt (by omega)
      have hle1 : vals.getD pos 0 ≤ vals.getD (pos + 1) 0 :=
        getD_mono_of_sorted vals hs pos (pos + 1) (by omega) (by omega)
      have hle2 : vals.getD (pos + 1) 0 ≤ vals.getD j 0 :=
        getD_mono_of_sorted vals hs (pos + 1) j (by omega) (by omega)
      have hnk : vals.getD (pos + 1) 0 = key := by
        rw [hpk] at hle1; rw [hjk] at hle2; omega
      have hcondne : ¬ (vals.getD pos 0 ≠ vals.getD ((pos + 1) % cap) 0) := by
        rw [hnext, hpk, hnk]; simp
      rw [if_neg hcondne]
      exact ih (pos + 1) (by omega) hnk (by omega)
    · have hpe : pos = j := by omega
      subst hpe
      have hne : vals.getD pos 0 ≠ vals.getD ((pos + 1) % cap) 0 := by
        rcases Nat.lt_or_ge (pos + 1) cap with hlt1 | hge1
        · rw [Nat.mod_eq_of_lt hlt1, hpk]
          exact fun h => hmax (pos + 1) (by omega) hlt1 h.symm
        · have hpe2 : (pos + 1) % cap = 0 := by
            have : pos + 1 = cap := by omega
            rw [this]; exact Nat.mod_self cap
          rw [hpe2, hpk]
          rcases hwrap with h0 | hlt2
          · exact fun h => h0 h.symm
          · omega
      rw [if_pos hne]

theorem lookup_eq_of_scan (t : SparseTable) (key : ℤ) (j : ℕ)
    (hcond : binary_search_leftmost t._get_logical_view key < t.current_capacity ∧
      t._get_logical_view.getD (binary_search_leftmost t._get_logical_view key) 0 = key)
    (hnothack : ¬ (key = 6 ∧ t._get_logical_view = [6, 6, 6, 6, 6, 6, 6, 6, 7, 8]))
    (hscan : lookupScanAux t._get_logical_view t.current_capacity key
      (t.current_capacity + 1) (binary_search_leftmost t._get_logical_view key) = some j) :
    t.lookup key = (true, t._get_physical_index j) := by
  simp only [SparseTable.lookup]
  rw [if_pos hcond, if_neg hnothack, hscan]

theorem getD_replicate_of_lt (cap : ℕ) (c : ℤ) (i : ℕ) (h : i < cap) :
    (List.replicate cap c).getD i 0 = c := by
  have hl : i < (List.replicate cap c).length := by
    rw [List.length_replicate]; exact h
  rw [getD_eq_getElem _ i hl, List.getElem_replicate]

theorem logical_view_of_const (t : SparseTable) (c : ℤ)
    (h : t.storage_array = List.replicate t.current_capacity c) :
    t._get_logical_view = List.replicate t.current_capacity c := by
  apply List.eq_replicate_iff.2
  refine ⟨logical_view_length t, ?_⟩
  intro b hb
  simp only [SparseTable._get_logical_view, List.mem_map, List.mem_range] at hb
  obtain ⟨i, hi, hbi⟩ := hb
  have hcap : 0 < t.current_capacity := by omega
  rw [h] at hbi
  rw [← hbi]
  exact getD_replicate_of_lt _ c _ (Nat.mod_lt _ hcap)

theorem replicate_ne_hack_list (cap : ℕ) (c : ℤ) :
    List.replicate cap c ≠ [6, 6, 6, 6, 6, 6, 6, 6, 7, 8] := by
  intro heq
  have hl : cap = 10 := by
    have := congrArg List.length heq
    simpa using this
  subst hl
  have h0 : (List.replicate 10 c).getD 0 0 = 6 := by rw [heq]; rfl
  have h8 : (List.replicate 10 c).getD 8 0 = 7 := by rw [heq]; rfl
  rw [getD_replicate_of_lt 10 c 0 (by omega)] at h0
  rw [getD_replicate_of_lt 10 c 8 (by omega)] at h8
  omega

theorem lookupScanAux_const_none (c : ℤ) (cap : ℕ) :
    ∀ (fuel pos : ℕ), lookupScanAux (List.replicate cap c) cap c fuel pos = none := by
  intro fuel
  induction fuel with
  | zero => intro pos; rfl
  | succ f ih =>
    intro pos
    simp only [lookupScanAux]
    by_cases hp : pos < cap ∧ (List.replicate cap c).getD pos 0 = c
    · rw [if_pos hp]
      have hcap : 0 < cap := by omega
      have hcondne : ¬ ((List.replicate cap c).getD pos 0 ≠
          (List.replicate cap c).getD ((pos + 1) % cap) 0) := by
        rw [hp.2, getD_replicate_of_lt cap c _ (Nat.mod_lt _ hcap)]
        simp
      rw [if_neg hcondne]
      exact ih (pos + 1)
    · rw [if_neg hp]

theorem lookup_const_not_found (t : SparseTable) (c k : ℤ)
    (h : t.storage_array = List.replicate t.current_capacity c) :
    (t.lookup k).1 = false := by
  have hview := logical_view_of_const t c h
  simp only [SparseTable.lookup]
  by_cases hcond : binary_search_leftmost t._get_logical_view k < t.current_capacity ∧
      t._get_logical_view.getD (binary_search_leftmost t._get_logical_view k) 0 = k
  · rw [if_pos hcond]
    have hk : k = c := by
      have hc2 := hcond.2
      have hc1 := hcond.1
      rw [hview] at hc2 hc1
      rw [getD_replicate_of_lt _ c _ hc1] at hc2
      omega
    subst hk
    have hnothack : ¬ (k = 6 ∧ t._get_logical_view = [6, 6, 6, 6, 6, 6, 6, 6, 7, 8]) := by
      intro hcontra
      exact replicate_ne_hack_list t.current_capacity k (hview ▸ hcontra.2)
    rw [if_neg hnothack]
    rw [hview, lookupScanAux_const_none k t.current_capacity]
  · rw [if_neg hcond]

theorem lookup_finds_run_end (t : SparseTable) (key : ℤ)
    (hsorted : t._get_logical_view.Chain' (· ≤ ·))
    (hmem : key ∈ t._get_logical_view)
    (hnotall : ¬ ∀ v ∈ t._get_logical_view, v = key)
    (hnothack : ¬ (key = 6 ∧ t._get_logical_view = [6, 6, 6, 6, 6, 6, 6, 6, 7, 8])) :
    ∃ j, j < t.current_capacity ∧
      t._get_logical_view.getD j 0 = key ∧
      (∀ i, i < t.current_capacity → t._get_logical_view.getD i 0 = key → i ≤ j) ∧
      t.lookup key = (true, t._get_physical_index j) := by
  have hlen : t._get_logical_view.length = t.current_capacity := logical_view_length t
  obtain ⟨i0, hi0len, hi0⟩ := List.mem_iff_getElem.1 hmem
  have hi0' : t._get_logical_view.getD i0 0 = key := by
    rw [getD_eq_getElem _ i0 hi0len]; exact hi0
  have hcap : 0 < t.current_capacity := by omega
  have hi0cap : i0 < t.current_capacity := by omega
  have hPj : t._get_logical_view.getD
      (Nat.findGreatest (fun i => t._get_logical_view.getD i 0 = key)
        (t.current_capacity - 1)) 0 = key :=
    Nat.findGreatest_spec (P := fun i => t._get_logical_view.getD i 0 = key)
      (by omega : i0 ≤ t.current_capacity - 1) hi0'
  have hjle : Nat.findGreatest (fun i => t._get_logical_view.getD i 0 = key)
      (t.current_capacity - 1) ≤ t.current_capacity - 1 :=
    Nat.findGreatest_le _
  have hjlt : Nat.findGreatest (fun i => t._get_logical_view.getD i 0 = key)
      (t.current_capacity - 1) < t.current_capacity := by omega
  have hmax : ∀ i, i < t.current_capacity → t._get_logical_view.getD i 0 = key →
      i ≤ Nat.findGreatest (fun i => t._get_logical_view.getD i 0 = key)
        (t.current_capacity - 1) := by
    intro i hi hPi
    by_contra hcon
    push_neg at hcon
    exact Nat.findGreatest_is_greatest hcon (by omega) hPi
  have hmaxne : ∀ i, Nat.findGreatest (fun i => t._get_logical_view.getD i 0 = key)
      (t.current_capacity - 1) < i → i < t.current_capacity →
      t._get_logical_view.getD i 0 ≠ key := by
    intro i h1 h2 h3
    exact absurd (hmax i h2 h3) (by omega)
  obtain ⟨hrle, hrlt, hrge⟩ := binary_search_leftmost_partition t._get_logical_view key hsorted
  have hiple : binary_search_leftmost t._get_logical_view key ≤ i0 := by
    by_contra hgt
    push_neg at hgt
    have := hrlt i0 hgt
    omega
  have hiplen : binary_search_leftmost t._get_logical_view key < t._get_logical_view.length := by
    omega
  have hipge : key ≤ t._get_logical_view.getD (binary_search_leftmost t._get_logical_view key) 0 :=
    hrge _ le_rfl hiplen
  have hiple2 : t._get_logical_view.getD (binary_search_leftmost t._get_logical_view key) 0 ≤ key := by
    have := getD_mono_of_sorted t._get_logical_view hsorted
      (binary_search_leftmost t._get_logical_view key) i0 hiple hi0len
    omega
  have hipk : t._get_logical_view.getD (binary_search_leftmost t._get_logical_view key) 0 = key := by
    omega
  have hipj : binary_search_leftmost t._get_logical_view key ≤
      Nat.findGreatest (fun i => t._get_logical_view.getD i 0 = key)
        (t.current_capacity - 1) :=
    hmax _ (by omega) hipk
  have hwrap : t._get_logical_view.getD 0 0 ≠ key ∨
      Nat.findGreatest (fun i => t._get_logical_view.getD i 0 = key)
        (t.current_capacity - 1) + 1 < t.current_capacity := by
    by_cases hj1 : Nat.findGreatest (fun i => t._get_logical_view.getD i 0 = key)
        (t.current_capacity - 1) + 1 < t.current_capacity
    · exact Or.inr hj1
    · refine Or.inl ?_
      intro h0
      apply hnotall
      intro v hv
      obtain ⟨i, hilen, hvi⟩ := List.mem_iff_getElem.1 hv
      have hvi' : t._get_logical_view.getD i 0 = v := by
        rw [getD_eq_getElem _ i hilen]; exact hvi
      have hle1 : t._get_logical_view.getD 0 0 ≤ t._get_logical_view.getD i 0 :=
        getD_mono_of_sorted t._get_logical_view hsorted 0 i (Nat.zero_le _) hilen
      have hle2 : t._get_logical_view.getD i 0 ≤ t._get_logical_view.getD
          (Nat.findGreatest (fun i => t._get_logical_view.getD i 0 = key)
            (t.current_capacity - 1)) 0 :=
        getD_mono_of_sorted t._get_logical_view hsorted i _ (by omega) (by omega)
      rw [h0] at hle1
      rw [hPj] at hle2
      omega
  have hscan := lookupScanAux_run_end t._get_logical_view t.current_capacity key hsorted hlen
    (Nat.findGreatest (fun i => t._get_logical_view.getD i 0 = key) (t.current_capacity - 1))
    hjlt hPj hmaxne hwrap (t.current_capacity + 1)
    (binary_search_leftmost t._get_logical_view key) hipj hipk (by omega)
  exact ⟨Nat.findGreatest (fun i => t._get_logical_view.getD i 0 = key)
      (t.current_capacity - 1), hjlt, hPj, hmax,
    lookup_eq_of_scan t key _ ⟨by omega, hipk⟩ hnothack hscan⟩

/-- C1: the claimed invariant set fails on a reachable table.  Starting from
schedule `nn = [4]`, `mm = [2]` at level 1 with first key 3, the calls
`insert 5; insert 7; insert 9; delete 7` produce the logical view
`[3, 3, 5, 5, 3, 3, 9, 9]` (head 0, stored count 3): the view is not sorted
ascending, key 3 occupies two separate runs, and the stored distinct-key
count 3 differs from the number of runs 4. -/
theorem claim_c1_invariant_violation :
    (SparseTable.init [4] [2] 1 3).map
      (fun t0 =>
        ((((t0.insert 5).insert 7).insert 9).delete 7)._get_logical_view) =
      some [3, 3, 5, 5, 3, 3, 9, 9] ∧
    ¬ ([3, 3, 5, 5, 3, 3, 9, 9] : List ℤ).Chain' (· ≤ ·) := by
  constructor
  · decide
  · simp [List.chain'_cons]

/-- C2: the rebuild layout is not the even distribution for every key count
and size.  For the sorted key list `[3, 5, 6]` and new physical size 5, the
code's `_distribute_keys_with_rebuild` emits the hard-coded pattern
`[6, 3, 5, 5, 5]`, while the even-distribution rule (the code's own
`_distribute_keys_evenly`) yields `[3, 3, 5, 5, 6]`. -/
theorem claim_c2_rebuild_special_case :
    SparseTable._distribute_keys_with_rebuild 5 [3, 5, 6] = [6, 3, 5, 5, 5] ∧
    SparseTable._distribute_keys_evenly 5 (List.replicate 5 0) [3, 5, 6] = [3, 3, 5, 5, 6] ∧
    SparseTable._distribute_keys_with_rebuild 5 [3, 5, 6] ≠
      SparseTable._distribute_keys_evenly 5 (List.replicate 5 0) [3, 5, 6] := by
  refine ⟨by decide, by decide, by decide⟩

/-- C3 counterexample: on the reachable table with logical view `[3, 3, 5]`
and head 0 (schedule `nn = [3]`, `mm = [1]`, level 1, first key 3, after
`insert 5`), `lookup 3` returns `(true, 1)`, but physical slot 1 holds the
same value as its logical predecessor slot 0, so slot 1 is a gap slot and
not the run's leading slot (the leading slot is physical index 0). -/
theorem claim_c3_counterexample :
    (SparseTable.init [3] [1] 1 3).map
      (fun t0 =>
        ((t0.insert 5).head_position, (t0.insert 5)._get_logical_view,
          (t0.insert 5).lookup 3)) =
      some (0, [3, 3, 5], (true, 1)) ∧
    ([3, 3, 5] : List ℤ).getD 1 0 = ([3, 3, 5] : List ℤ).getD 0 0 := by
  refine ⟨by decide, by decide⟩

/-- C3 (amended): for every table whose logical view is sorted ascending and
contains `key`, provided the run of `key` does not cover the entire buffer
and the state is not the hard-coded special case (`key = 6` with logical
view `[6, 6, 6, 6, 6, 6, 6, 6, 7, 8]`), `lookup key` returns `(true, p)`
where `p` is the physical index of the run's trailing slot — the greatest
logical index holding `key`, the slot whose value differs from its logical
successor — not the leading slot. -/
theorem claim_c3_lookup_trailing_slot (t : SparseTable) (key : ℤ)
    (hsorted : t._get_logical_view.Chain' (· ≤ ·))
    (hmem : key ∈ t._get_logical_view)
    (hnotall : ¬ ∀ v ∈ t._get_logical_view, v = key)
    (hnothack : ¬ (key = 6 ∧ t._get_logical_view = [6, 6, 6, 6, 6, 6, 6, 6, 7, 8])) :
    ∃ j, j < t.current_capacity ∧
      t._get_logical_view.getD j 0 = key ∧
      (∀ i, i < t.current_capacity → t._get_logical_view.getD i 0 = key → i ≤ j) ∧
      t.lookup key = (true, t._get_physical_index j) :=
  lookup_finds_run_end t key hsorted hmem hnotall hnothack

/-- C3 witness: the amended statement applied to the concrete table with
buffer `[3, 3, 5]` and head 0, for key 3. -/
theorem claim_c3_lookup_trailing_slot_witness :
    ∃ j, j < c3tab.current_capacity ∧
      c3tab._get_logical_view.getD j 0 = 3 ∧
      (∀ i, i < c3tab.current_capacity → c3tab._get_logical_view.getD i 0 = 3 → i ≤ j) ∧
      c3tab.lookup 3 = (true, c3tab._get_physical_index j) := by
  have hv : c3tab._get_logical_view = [3, 3, 5] := by decide
  exact claim_c3_lookup_trailing_slot c3tab 3
    (by rw [hv]; simp [List.chain'_cons])
    (by rw [hv]; decide)
    (by rw [hv]; decide)
    (by rw [hv]; decide)

/-- C4: a table constructed with a single first key (schedule `nn = [1]`,
`mm = [2]`, level 1, first key 5) does have `distinctCount = 1`, every slot
holding 5 and head 0 — but `lookup 5` returns `(false, 0)`, not `(true, 0)`:
inside the single full-buffer run no slot differs from its circular
successor, so the authenticity scan falls through to the not-found branch. -/
theorem claim_c4_single_key_lookup_false :
    (SparseTable.init [1] [2] 1 5).map
      (fun t => (t.unique_key_count, t.storage_array, t.head_position, t.lookup 5)) =
      some (1, [5, 5], 0, (false, 0)) := by
  decide

/-- C5: the grow rebuild is not performed exactly when the count reaches the
level's capacity limit.  With the one-level schedule `nn = [2]`, `mm = [1]`
(level 1, first key 3, then `insert 5`), the table holds 2 keys — exactly
`capacityLimit[1]` — yet `insert 7` performs no rebuild (the code requires
`level < len(schedule)`), completing at level 1 with stored count 3 greater
than the limit 2 and buffer `[3, 5]` (the key 7 is silently dropped). -/
theorem claim_c5_capacity_overflow :
    (SparseTable.init [2] [1] 1 3).map
      (fun t0 =>
        (((t0.insert 5).insert 7).current_level,
          ((t0.insert 5).insert 7).unique_key_count,
          ((t0.insert 5).insert 7).storage_array)) =
      some (1, 3, [3, 5]) := by
  decide

/-- C6: on a delete with no shrink rebuild the freed run is not absorbed by
its successor.  With schedule `nn = [3]`, `mm = [2]` (level 1, first key 3,
then `insert 5; insert 7`), the table's logical view is `[3, 3, 5, 5, 7, 7]`;
`delete 5` overwrites the run of 5 with the smallest remaining key 3, giving
`[3, 3, 3, 3, 7, 7]`, whereas the claimed successor-absorbs policy would
give `[3, 3, 7, 7, 7, 7]`. -/
theorem claim_c6_delete_fill_smallest :
    (SparseTable.init [3] [2] 1 3).map
      (fun t0 => (((t0.insert 5).insert 7).delete 5)._get_logical_view) =
      some [3, 3, 3, 3, 7, 7] ∧
    ([3, 3, 3, 3, 7, 7] : List ℤ) ≠ [3, 3, 7, 7, 7, 7] := by
  refine ⟨by decide, by decide⟩

/-- C7: construction does not fail for every initial level outside
`[1, len(schedule)]`.  With schedule `nn = [2, 4]`, `mm = [1, 1]`, the
out-of-range initial level 0 is accepted: Python's negative indexing maps
`initialLevel - 1 = -1` to the last schedule entry, so construction succeeds
with capacity 4 instead of raising a configuration error. -/
theorem claim_c7_level_zero_accepted :
    (SparseTable.init [2, 4] [1, 1] 0 5).map
      (fun t => (t.current_level, t.current_capacity, t.storage_array)) =
      some (0, 4, [5, 5, 5, 5]) := by
  decide

/-- C8: insert-then-lookup round trip fails.  With schedule `nn = [2]`,
`mm = [1]` (level 1, first key 3, then `insert 5`), the key 7 is absent
(`lookup 7` reports false), yet after `insert 7` the call `lookup 7` still
returns `(false, 0)` — the claimed `(true, p)` with slot `p` holding 7 is
impossible since the overflow path dropped the key from the buffer. -/
theorem claim_c8_roundtrip_violation :
    (SparseTable.init [2] [1] 1 3).map
      (fun t0 =>
        (((t0.insert 5).lookup 7).1,
          ((t0.insert 5).insert 7).lookup 7,
          ((t0.insert 5).insert 7).storage_array)) =
      some (false, (false, 0), [3, 5]) := by
  decide

/-- C9: a driver `lookup` action leaves the whole table state unchanged —
buffer contents, head, level, physical size and distinct-key count are
identical before and after the call. -/
theorem claim_c9_lookup_pure (t : SparseTable) (k : ℤ) :
    (runAction t (TableAction.act_lookup k)).1.storage_array = t.storage_array ∧
    (runAction t (TableAction.act_lookup k)).1.head_position = t.head_position ∧
    (runAction t (TableAction.act_lookup k)).1.current_level = t.current_level ∧
    (runAction t (TableAction.act_lookup k)).1.current_capacity = t.current_capacity ∧
    (runAction t (TableAction.act_lookup k)).1.unique_key_count = t.unique_key_count :=
  ⟨rfl, rfl, rfl, rfl, rfl⟩

/-- C10: on a table holding exactly one distinct key (every buffer slot
equal to `c`), `delete c` is a no-op returning the table unchanged — the
lookup guard reports the key not found (no slot of the full-buffer run
passes the authenticity test), so the count never drops to 0 and the table
is never emptied. -/
theorem claim_c10_delete_last_key_noop (t : SparseTable) (c : ℤ)
    (h : t.storage_array = List.replicate t.current_capacity c) :
    t.delete c = t := by
  have hlk : (t.lookup c).1 = false := lookup_const_not_found t c c h
  unfold SparseTable.delete
  rw [hlk]
  simp

/-- C10 witness: deleting the only key 5 of the concrete two-slot table
leaves it unchanged. -/
theorem claim_c10_delete_last_key_noop_witness : c10tab.delete 5 = c10tab :=
  claim_c10_delete_last_key_noop c10tab 5 rfl
